import Mathlib

/-!
# Verification of the cosdata version-chain, lazy-item and DTO subsystems

Shallow embedding of:
* `src/models/prob_lazy_load/lazy_item.rs` — `largest_power_of_4_below`,
  `ProbLazyItem::{add_version, add_version_inner, get_latest_version,
  get_version, set_state, is_ready, is_pending, try_get_data}`;
* `src/api_service.rs` — the pseudo-replica insertion performed by
  `init_hnsw_index_for_collection`;
* `src/api/vectordb/vectors/dtos.rs` — the custom serde deserializers for
  `CreateSparseVectorDto` and `CreateVectorDto`.

Machine integers (`u16`) are modelled as `Nat`; the theorems carry explicit
range hypotheses (`< 65536`) wherever the 16-bit width matters.
-/

/-- Model of `u16::leading_zeros`: the number of leading zero bits of a
16-bit value.  Written as an explicit 16-way comparison so that it is
kernel-computable. -/
def u16_leading_zeros (x : Nat) : Nat :=
  if 2 ^ 15 ≤ x then 0
  else if 2 ^ 14 ≤ x then 1
  else if 2 ^ 13 ≤ x then 2
  else if 2 ^ 12 ≤ x then 3
  else if 2 ^ 11 ≤ x then 4
  else if 2 ^ 10 ≤ x then 5
  else if 2 ^ 9 ≤ x then 6
  else if 2 ^ 8 ≤ x then 7
  else if 2 ^ 7 ≤ x then 8
  else if 2 ^ 6 ≤ x then 9
  else if 2 ^ 5 ≤ x then 10
  else if 2 ^ 4 ≤ x then 11
  else if 2 ^ 3 ≤ x then 12
  else if 2 ^ 2 ≤ x then 13
  else if 2 ^ 1 ≤ x then 14
  else if 2 ^ 0 ≤ x then 15
  else 16

/-- `largest_power_of_4_below` from `lazy_item.rs`:
`msb_position = 15 - x.leading_zeros(); msb_position / 2`.
The source asserts `x ≠ 0`; theorems about this function carry `1 ≤ x`
as a hypothesis. -/
def largest_power_of_4_below (x : Nat) : Nat :=
  (15 - u16_leading_zeros x) / 2

theorem u16_clz_spec {x : Nat} (h1 : 1 ≤ x) (h2 : x < 65536) :
    u16_leading_zeros x = 15 - Nat.log2 x := by
  have hne : x ≠ 0 := by omega
  have hle := Nat.log2_self_le hne
  have hlt := Nat.lt_log2_self (n := x)
  have hk : Nat.log2 x ≤ 15 := by
    by_contra hgt
    push_neg at hgt
    have : 2 ^ 16 ≤ 2 ^ Nat.log2 x := Nat.pow_le_pow_right (by norm_num) hgt
    omega
  set k := Nat.log2 x with hkdef
  clear_value k
  interval_cases k <;>
    (simp only [u16_leading_zeros]
     repeat rw [if_neg (by omega)]
     rw [if_pos (by omega)])

/-- For a 16-bit value the MSB position computed via `leading_zeros` is
`Nat.log2 x`, so the function returns `log2 x / 2`. -/
theorem largest_power_of_4_below_eq_log2 {x : Nat} (h1 : 1 ≤ x) (h2 : x < 65536) :
    largest_power_of_4_below x = Nat.log2 x / 2 := by
  have hk : Nat.log2 x ≤ 15 := by
    by_contra hgt
    push_neg at hgt
    have h3 := Nat.log2_self_le (show x ≠ 0 by omega)
    have : 2 ^ 16 ≤ 2 ^ Nat.log2 x := Nat.pow_le_pow_right (by norm_num) hgt
    omega
  rw [largest_power_of_4_below, u16_clz_spec h1 h2]
  omega

theorem largest_power_of_4_below_le {x : Nat} (h1 : 1 ≤ x) (h2 : x < 65536) :
    4 ^ largest_power_of_4_below x ≤ x := by
  rw [largest_power_of_4_below_eq_log2 h1 h2]
  calc 4 ^ (Nat.log2 x / 2) = 2 ^ (2 * (Nat.log2 x / 2)) := by
        rw [pow_mul]; norm_num
    _ ≤ 2 ^ Nat.log2 x := Nat.pow_le_pow_right (by norm_num) (by omega)
    _ ≤ x := Nat.log2_self_le (by omega)

theorem lt_largest_power_of_4_below_succ {x : Nat} (h1 : 1 ≤ x) (h2 : x < 65536) :
    x < 4 ^ (largest_power_of_4_below x + 1) := by
  rw [largest_power_of_4_below_eq_log2 h1 h2]
  calc x < 2 ^ (Nat.log2 x + 1) := Nat.lt_log2_self
    _ ≤ 2 ^ (2 * (Nat.log2 x / 2 + 1)) := Nat.pow_le_pow_right (by norm_num) (by omega)
    _ = 4 ^ (Nat.log2 x / 2 + 1) := by rw [pow_mul]; norm_num

/-- The bracket `4^k ≤ x < 4^(k+1)` pins `k` down uniquely. -/
theorem pow4_bracket_unique {x a b : Nat}
    (ha1 : 4 ^ a ≤ x) (ha2 : x < 4 ^ (a + 1))
    (hb1 : 4 ^ b ≤ x) (hb2 : x < 4 ^ (b + 1)) : a = b := by
  by_contra hne
  rcases Nat.lt_or_ge a b with h | h
  · have : 4 ^ (a + 1) ≤ 4 ^ b := Nat.pow_le_pow_right (by norm_num) h
    omega
  · have h' : b < a := by omega
    have : 4 ^ (b + 1) ≤ 4 ^ a := Nat.pow_le_pow_right (by norm_num) h'
    omega

theorem largest_power_of_4_below_eq {x k : Nat} (h2 : x < 65536)
    (hk1 : 4 ^ k ≤ x) (hk2 : x < 4 ^ (k + 1)) :
    largest_power_of_4_below x = k := by
  have h1 : 1 ≤ x := le_trans (Nat.one_le_pow _ _ (by norm_num)) hk1
  exact pow4_bracket_unique (largest_power_of_4_below_le h1 h2)
    (lt_largest_power_of_4_below_succ h1 h2) hk1 hk2

/-!
## The version chain

`ProbLazyItem<ProbNode>` version chains.  A node of the chain is determined
by its `version_number` (a `u16`, modelled as `Nat`) and its `versions`
array.  `ProbLazyItemArray` itself lives in
`src/models/prob_lazy_load/lazy_item_array.rs`, which is not among the
sources; it is modelled from the spec: a fixed-capacity (8) append-only
sequence of items where `get i` is `none` beyond the current length, `push`
appends at the end, and `last`/`len` are as for lists.  A `List` with
`getElem?`, `++ [x]`, `getLast?` and `length` realises exactly that
contract (the capacity bound is never reached for 16-bit version numbers:
at most `largest_power_of_4_below 65535 + 1 = 8` slots are ever present).

All other fields of a `ProbNode` are irrelevant to the chain algorithms;
the chain operations below read and write only `version_number` and
`versions`, exactly as the Rust code does (every lazy item is `Ready`, as
in the in-memory test scenario, so `try_get_data` always succeeds and the
cache never intervenes).
-/

inductive VTree : Type where
  | node (version_number : Nat) (versions : List VTree) : VTree

/-- `get_current_version_number`. -/
def VTree.version : VTree → Nat
  | .node v _ => v

/-- The `versions` array of the node. -/
def VTree.versions : VTree → List VTree
  | .node _ cs => cs

theorem vt_mem_of_getLast? : ∀ {l : List VTree} {a : VTree}, l.getLast? = some a → a ∈ l := by
  intro l
  induction l with
  | nil => intro a h; simp at h
  | cons x xs ih =>
    intro a h
    cases xs with
    | nil => simp_all
    | cons y ys =>
      rw [List.getLast?_cons_cons] at h
      exact List.mem_cons_of_mem _ (ih h)

/-- `ProbLazyItem::add_version_inner`.  The mutation of the node found at
the end of the descent is modelled by returning the updated tree as the
first component.  The second component is the inner
`Result<*mut Self, *mut Self>`: `Sum.inl` is `Ok` (the node that received
the push), `Sum.inr` is `Err` (the conflicting node of a duplicate
insertion, returned unchanged).  `1 << (2 * index)` is `2 ^ (2 * index)`. -/
def add_version_inner (version : VTree) :
    VTree → (selfRel : Nat) → (targetRel : Nat) → VTree × (VTree ⊕ VTree)
  | .node v cs, selfRel, targetRel =>
    let target_diff := targetRel - selfRel
    if target_diff = 0 then (.node v cs, Sum.inr (.node v cs))
    else
      let index := largest_power_of_4_below target_diff
      match cs[index]? with
      | some existing =>
        let r := add_version_inner version existing (selfRel + 2 ^ (2 * index)) targetRel
        (.node v (cs.set index r.1), r.2)
      | none => (.node v (cs ++ [version]), Sum.inl (.node v (cs ++ [version])))
termination_by _t selfRel targetRel => targetRel - selfRel
decreasing_by
  have hp : 0 < 2 ^ (2 * largest_power_of_4_below (targetRel - selfRel)) :=
    Nat.pos_pow_of_pos _ (by norm_num)
  omega

/-- `ProbLazyItem::get_latest_version` (and `get_latest_version_inner`,
which differs only in receiving the `versions` array already read):
returns the terminus of the chain together with its version distance from
`self`;  `1u16 << ((versions.len() - 1) * 2)` is `2 ^ (2 * (len - 1))`. -/
def get_latest_version : VTree → VTree × Nat
  | .node v cs =>
    match h : cs.getLast? with
    | some last =>
      let r := get_latest_version last
      (r.1, 2 ^ (2 * (cs.length - 1)) + r.2)
    | none => (.node v cs, 0)
termination_by t => sizeOf t
decreasing_by
  have hm := vt_mem_of_getLast? h
  have := List.sizeOf_lt_of_mem hm
  simp only [VTree.node.sizeOf_spec]
  omega

/-- `ProbLazyItem::add_version`. -/
def add_version (this version : VTree) : VTree × (VTree ⊕ VTree) :=
  add_version_inner version this 0 ((get_latest_version this).2 + 1)

/-- The loop of `test_prob_lazy_item_with_versions_serialization_and_validation`:
starting from a root at version number `0`, insert nodes with consecutive
version numbers `1, 2, …, n` via `add_version(root, new)`, each new node
carrying an empty `versions` array. -/
def insert_versions : Nat → VTree
  | 0 => .node 0 []
  | n + 1 => (add_version (insert_versions n) (.node (n + 1) [])).1

/-- The slot scan of `ProbLazyItem::get_version`: starting from
`prev = versions.get(0)`, walk the remaining slots; on the first slot whose
child version number exceeds the target, stop with the current `prev`,
otherwise advance `prev` to that slot. -/
def scan_versions (target : Nat) : VTree → List VTree → VTree
  | prev, [] => prev
  | prev, next :: rest =>
    if target < next.version then prev else scan_versions target next rest

theorem scan_versions_mem (target : Nat) :
    ∀ (prev : VTree) (l : List VTree),
      scan_versions target prev l = prev ∨ scan_versions target prev l ∈ l := by
  intro prev l
  induction l generalizing prev with
  | nil => left; rfl
  | cons next rest ih =>
    simp only [scan_versions]
    split_ifs with h
    · left; rfl
    · rcases ih next with h1 | h1
      · right; rw [h1]; exact List.mem_cons_self _ _
      · right; exact List.mem_cons_of_mem _ h1

/-- `ProbLazyItem::get_version`. -/
def get_version : VTree → (version : Nat) → Option VTree
  | .node v cs, target =>
    if target < v then none
    else if target = v then some (.node v cs)
    else
      match cs with
      | [] => none
      | prev :: rest => get_version (scan_versions target prev rest) target
termination_by t _ => sizeOf t
decreasing_by
  rcases scan_versions_mem target prev rest with h | h
  · rw [h]
    simp only [VTree.node.sizeOf_spec, List.cons.sizeOf_spec]
    omega
  · have := List.sizeOf_lt_of_mem h
    simp only [VTree.node.sizeOf_spec, List.cons.sizeOf_spec] at *
    omega

/-- `validate_lazy_item_versions` from `serializer/hnsw/tests.rs`: for every
slot `i` of the node, the slot's version number minus the version number
passed for the node equals `4 ^ i`, recursively down the chain (the
recursive call receives the child's own version number). -/
inductive ValidVersions : VTree → Nat → Prop where
  | mk (v : Nat) (cs : List VTree) (vn : Nat) :
      (∀ i (h : i < cs.length), cs[i].version - vn = 4 ^ i) →
      (∀ i (h : i < cs.length), ValidVersions cs[i] cs[i].version) →
      ValidVersions (.node v cs) vn

/-- The canonical chain: `buildChain b m` is the version chain holding the
version numbers `b, b + 1, …, b + m`, rooted at the node with version
number `b`.  Its slot `i` (present iff `4 ^ i ≤ m`) holds the canonical
chain of the versions `b + 4 ^ i, …, b + min m (4 ^ (i + 1) - 1)`.
This is a specification-side definition used to characterise the trees
produced by consecutive `add_version` insertions. -/
def buildChain (b m : Nat) : VTree :=
  if m = 0 then .node b []
  else
    .node b ((List.range (largest_power_of_4_below m + 1)).map
      (fun i => buildChain (b + 4 ^ i) (min m (4 ^ (i + 1) - 1) - 4 ^ i)))
termination_by m
decreasing_by
  have h4 : 0 < 4 ^ i := Nat.pos_pow_of_pos _ (by norm_num)
  omega

/-!
## Structure of the canonical chain
-/

theorem two_pow_two_mul (k : Nat) : (2 : Nat) ^ (2 * k) = 4 ^ k := by
  rw [pow_mul]; norm_num

theorem buildChain_zero (b : Nat) : buildChain b 0 = .node b [] := by
  rw [buildChain]
  simp

theorem buildChain_pos (b m : Nat) (hm : m ≠ 0) :
    buildChain b m = .node b ((List.range (largest_power_of_4_below m + 1)).map
      (fun i => buildChain (b + 4 ^ i) (min m (4 ^ (i + 1) - 1) - 4 ^ i))) := by
  rw [buildChain, if_neg hm]

theorem version_buildChain (b m : Nat) : (buildChain b m).version = b := by
  rcases Nat.eq_zero_or_pos m with h | h
  · subst h; rw [buildChain_zero]; rfl
  · rw [buildChain_pos b m (by omega)]; rfl

theorem le_largest_power_of_4_below {x j : Nat} (hx : x < 65536) (hj : 4 ^ j ≤ x) :
    j ≤ largest_power_of_4_below x := by
  have h1 : 1 ≤ x := le_trans (Nat.one_le_pow _ _ (by norm_num)) hj
  by_contra hlt
  push_neg at hlt
  have : 4 ^ (largest_power_of_4_below x + 1) ≤ 4 ^ j :=
    Nat.pow_le_pow_right (by norm_num) (by omega)
  have := lt_largest_power_of_4_below_succ h1 hx
  omega

theorem get_latest_version_cons (v : Nat) (cs : List VTree) (last : VTree)
    (h : cs.getLast? = some last) :
    get_latest_version (VTree.node v cs) =
      ((get_latest_version last).1,
        2 ^ (2 * (cs.length - 1)) + (get_latest_version last).2) := by
  rw [get_latest_version]
  split
  · rename_i l hl
    rw [h] at hl
    cases hl
    rfl
  · rename_i hl
    rw [h] at hl
    cases hl

theorem get_latest_version_nil (v : Nat) :
    get_latest_version (VTree.node v []) = (VTree.node v [], 0) := by
  rw [get_latest_version]
  rfl

/-- The terminus of the canonical chain `buildChain b m` lies `m` relative
version steps ahead of the root. -/
theorem get_latest_version_buildChain :
    ∀ m, m < 65536 → ∀ b, (get_latest_version (buildChain b m)).2 = m := by
  intro m
  induction m using Nat.strong_induction_on with
  | _ m ih =>
    intro hm b
    rcases Nat.eq_zero_or_pos m with h0 | hpos
    · subst h0
      rw [buildChain_zero, get_latest_version_nil]
    · have h1 : 1 ≤ m := hpos
      set j := largest_power_of_4_below m with hj
      have hbr1 : 4 ^ j ≤ m := largest_power_of_4_below_le h1 hm
      have hbr2 : m < 4 ^ (j + 1) := lt_largest_power_of_4_below_succ h1 hm
      rw [buildChain_pos b m (by omega)]
      set f : Nat → VTree :=
        fun i => buildChain (b + 4 ^ i) (min m (4 ^ (i + 1) - 1) - 4 ^ i) with hf
      have hlast : ((List.range (j + 1)).map f).getLast? = some (f j) := by
        rw [List.range_succ, List.map_append]
        exact List.getLast?_concat _
      rw [get_latest_version_cons _ _ _ hlast]
      have hlen : ((List.range (j + 1)).map f).length = j + 1 := by
        rw [List.length_map, List.length_range]
      have hfj : f j = buildChain (b + 4 ^ j) (m - 4 ^ j) := by
        have hmin : min m (4 ^ (j + 1) - 1) = m := by omega
        simp only [hf, hmin]
      have h4j : 0 < 4 ^ j := Nat.pos_pow_of_pos _ (by norm_num)
      have hrec : (get_latest_version (f j)).2 = m - 4 ^ j := by
        rw [hfj]
        exact ih (m - 4 ^ j) (by omega) (by omega) _
      simp only [hlen, hrec]
      have hpow : (2 : Nat) ^ (2 * (j + 1 - 1)) = 4 ^ j := by
        rw [show j + 1 - 1 = j by omega, two_pow_two_mul]
      omega

/-!
## Unfolding equations for `add_version_inner`
-/

theorem add_version_inner_dup (version : VTree) (v : Nat) (cs : List VTree) (s t : Nat)
    (h : t - s = 0) :
    add_version_inner version (VTree.node v cs) s t =
      (VTree.node v cs, Sum.inr (VTree.node v cs)) := by
  rw [add_version_inner]
  simp [h]

theorem add_version_inner_push (version : VTree) (v : Nat) (cs : List VTree) (s t : Nat)
    (h : t - s ≠ 0) (h2 : cs[largest_power_of_4_below (t - s)]? = none) :
    add_version_inner version (VTree.node v cs) s t =
      (VTree.node v (cs ++ [version]), Sum.inl (VTree.node v (cs ++ [version]))) := by
  rw [add_version_inner]
  simp only [if_neg h]
  split
  · rename_i ex hex
    rw [h2] at hex
    cases hex
  · rfl

theorem add_version_inner_descend (version : VTree) (v : Nat) (cs : List VTree) (s t : Nat)
    (ex : VTree) (h : t - s ≠ 0) (h2 : cs[largest_power_of_4_below (t - s)]? = some ex) :
    add_version_inner version (VTree.node v cs) s t =
      (VTree.node v (cs.set (largest_power_of_4_below (t - s))
         (add_version_inner version ex (s + 2 ^ (2 * largest_power_of_4_below (t - s))) t).1),
       (add_version_inner version ex (s + 2 ^ (2 * largest_power_of_4_below (t - s))) t).2) := by
  rw [add_version_inner]
  simp only [if_neg h]
  split
  · rename_i ex' hex
    rw [h2] at hex
    cases hex
    rfl
  · rename_i hex
    rw [h2] at hex
    cases hex

theorem set_concat_of_length (l : List VTree) (a c : VTree) (n : Nat) (h : n = l.length) :
    (l ++ [a]).set n c = l ++ [c] := by
  subst h
  induction l with
  | nil => rfl
  | cons x xs ih => simp [List.set, ih]

/-- Inserting the next version into the canonical chain of `b, …, b + m`
yields the canonical chain of `b, …, b + m + 1`, with an `Ok` result.
`s` is the relative version number of the chain root in the enclosing
descent (the top-level call uses `s = 0`). -/
theorem add_version_inner_buildChain :
    ∀ m, m + 1 < 65536 → ∀ b s,
      ∃ w, add_version_inner (VTree.node (b + m + 1) []) (buildChain b m) s (s + m + 1) =
        (buildChain b (m + 1), Sum.inl w) := by
  intro m
  induction m using Nat.strong_induction_on with
  | _ m ih =>
    intro hm b s
    have hdiff : s + m + 1 - s = m + 1 := by omega
    rcases Nat.eq_zero_or_pos m with h0 | hpos
    · subst h0
      have hlp : largest_power_of_4_below 1 = 0 := by decide
      have hb1 : buildChain b 1 = VTree.node b [VTree.node (b + 1) []] := by
        rw [buildChain_pos b 1 one_ne_zero, hlp]
        simp [List.range_succ, buildChain_zero]
      rw [buildChain_zero]
      refine ⟨VTree.node b [VTree.node (b + 0 + 1) []], ?_⟩
      rw [add_version_inner_push _ _ _ _ _ (by omega) (by simp)]
      rw [hb1]
      simp
    · have h1 : 1 ≤ m := hpos
      have hm' : m < 65536 := by omega
      set j := largest_power_of_4_below m with hj
      have hbr1 : 4 ^ j ≤ m := largest_power_of_4_below_le h1 hm'
      have hbr2 : m < 4 ^ (j + 1) := lt_largest_power_of_4_below_succ h1 hm'
      have h4j : 0 < 4 ^ j := Nat.pos_pow_of_pos _ (by norm_num)
      set f : Nat → VTree :=
        fun i => buildChain (b + 4 ^ i) (min m (4 ^ (i + 1) - 1) - 4 ^ i) with hf
      set f' : Nat → VTree :=
        fun i => buildChain (b + 4 ^ i) (min (m + 1) (4 ^ (i + 1) - 1) - 4 ^ i) with hf'
      rw [buildChain_pos b m (by omega), ← hj, ← hf]
      rcases Nat.lt_or_ge (m + 1) (4 ^ (j + 1)) with hlt | hge
      · -- descend into the last slot
        have hlp1 : largest_power_of_4_below (m + 1) = j :=
          largest_power_of_4_below_eq hm (by omega) hlt
        have hget : ((List.range (j + 1)).map f)[largest_power_of_4_below (s + m + 1 - s)]? =
            some (f j) := by
          rw [hdiff, hlp1]
          simp
        have hfj : f j = buildChain (b + 4 ^ j) (m - 4 ^ j) := by
          have hmin : min m (4 ^ (j + 1) - 1) = m := by omega
          simp only [hf, hmin]
        obtain ⟨w, hw⟩ := ih (m - 4 ^ j) (by omega) (by omega) (b + 4 ^ j) (s + 2 ^ (2 * j))
        rw [show b + 4 ^ j + (m - 4 ^ j) + 1 = b + m + 1 by omega] at hw
        rw [two_pow_two_mul] at hw
        rw [show s + 4 ^ j + (m - 4 ^ j) + 1 = s + m + 1 by omega] at hw
        rw [show m - 4 ^ j + 1 = m + 1 - 4 ^ j by omega] at hw
        refine ⟨w, ?_⟩
        rw [add_version_inner_descend _ _ _ _ _ (f j) (by omega) hget]
        rw [hdiff, hlp1, two_pow_two_mul, hfj, hw]
        have hset : (((List.range (j + 1)).map f).set j (buildChain (b + 4 ^ j) (m + 1 - 4 ^ j))) =
            (List.range (j + 1)).map f' := by
          rw [List.range_succ, List.map_append, List.map_append]
          simp only [List.map_cons, List.map_nil]
          rw [set_concat_of_length _ _ _ _ (by simp)]
          congr 1
          · apply List.map_congr_left
            intro i hi
            have hij : i < j := List.mem_range.mp hi
            have hpow : 4 ^ (i + 1) ≤ 4 ^ j := Nat.pow_le_pow_right (by norm_num) (by omega)
            simp only [hf, hf']
            congr 1
            omega
          · simp only [hf']
            have hmin : min (m + 1) (4 ^ (j + 1) - 1) = m + 1 := by omega
            rw [hmin]
        rw [hset]
        rw [buildChain_pos b (m + 1) (by omega), hlp1, ← hf']
      · -- the last slot is full: push into a fresh slot
        have heq : m + 1 = 4 ^ (j + 1) := by omega
        have hlp1 : largest_power_of_4_below (m + 1) = j + 1 := by
          apply largest_power_of_4_below_eq hm (by omega)
          have : 4 ^ (j + 1) < 4 ^ (j + 2) :=
            Nat.pow_lt_pow_right (by norm_num) (by omega)
          omega
        have hnone : ((List.range (j + 1)).map f)[largest_power_of_4_below (s + m + 1 - s)]? =
            none := by
          rw [hdiff, hlp1]
          apply List.getElem?_eq_none
          simp
        refine ⟨VTree.node b ((List.range (j + 1)).map f ++ [VTree.node (b + m + 1) []]), ?_⟩
        rw [add_version_inner_push _ _ _ _ _ (by omega) hnone]
        have hchain : buildChain b (m + 1) =
            VTree.node b ((List.range (j + 1)).map f ++ [VTree.node (b + m + 1) []]) := by
          rw [buildChain_pos b (m + 1) (by omega), hlp1, ← hf']
          rw [List.range_succ, List.map_append]
          congr 2
          · apply List.map_congr_left
            intro i hi
            have hij : i < j + 1 := List.mem_range.mp hi
            have hpow : 4 ^ (i + 1) ≤ 4 ^ (j + 1) := Nat.pow_le_pow_right (by norm_num) (by omega)
            simp only [hf, hf']
            congr 1
            omega
          · simp only [List.map_cons, List.map_nil, hf']
            have h2 : 4 ^ (j + 1) < 4 ^ (j + 2) := Nat.pow_lt_pow_right (by norm_num) (by omega)
            have hmin : min (m + 1) (4 ^ (j + 1 + 1) - 1) - 4 ^ (j + 1) = 0 := by
              rw [show j + 1 + 1 = j + 2 by omega]
              omega
            rw [hmin, buildChain_zero]
            congr 2
            omega
        rw [hchain]

/-- Determinism of the scenario: inserting versions `1, …, n` in order
produces exactly the canonical chain on `0, …, n`. -/
theorem insert_versions_eq_buildChain :
    ∀ n, n ≤ 65535 → insert_versions n = buildChain 0 n := by
  intro n
  induction n with
  | zero => intro _; rw [insert_versions, buildChain_zero]
  | succ n ihn =>
    intro hn
    rw [insert_versions, ihn (by omega), add_version]
    rw [get_latest_version_buildChain n (by omega) 0]
    obtain ⟨w, hw⟩ := add_version_inner_buildChain n (by omega) 0 0
    rw [show (0:Nat) + n + 1 = n + 1 by omega] at hw
    rw [hw]

/-- Every canonical chain satisfies the recursive `4 ^ i` spacing check of
`validate_lazy_item_versions`. -/
theorem validVersions_buildChain :
    ∀ m, m < 65536 → ∀ b, ValidVersions (buildChain b m) b := by
  intro m
  induction m using Nat.strong_induction_on with
  | _ m ih =>
    intro hm b
    rcases Nat.eq_zero_or_pos m with h0 | hpos
    · subst h0
      rw [buildChain_zero]
      exact ValidVersions.mk _ _ _ (by intro i h; simp at h) (by intro i h; simp at h)
    · rw [buildChain_pos b m (by omega)]
      have h4i : ∀ i : Nat, 0 < 4 ^ i := fun i => Nat.pos_pow_of_pos _ (by norm_num)
      apply ValidVersions.mk
      · intro i h
        simp only [List.getElem_map, List.getElem_range]
        rw [version_buildChain]
        have := h4i i
        omega
      · intro i h
        simp only [List.getElem_map, List.getElem_range]
        rw [version_buildChain]
        refine ih (min m (4 ^ (i + 1) - 1) - 4 ^ i) ?_ ?_ (b + 4 ^ i)
        · have := h4i i
          omega
        · have := h4i i
          omega

/-!
## `get_version` on canonical chains
-/

theorem get_version_lt (v : Nat) (cs : List VTree) (target : Nat) (h : target < v) :
    get_version (VTree.node v cs) target = none := by
  rw [get_version.eq_def]
  dsimp only
  rw [if_pos h]

theorem get_version_eq_self (v : Nat) (cs : List VTree) :
    get_version (VTree.node v cs) v = some (VTree.node v cs) := by
  rw [get_version.eq_def]
  dsimp only
  rw [if_neg (by omega), if_pos rfl]

theorem get_version_gt_nil (v target : Nat) (h : v < target) :
    get_version (VTree.node v []) target = none := by
  rw [get_version.eq_def]
  dsimp only
  rw [if_neg (by omega), if_neg (by omega)]

theorem get_version_gt_cons (v : Nat) (prev : VTree) (rest : List VTree) (target : Nat)
    (h : v < target) :
    get_version (VTree.node v (prev :: rest)) target =
      get_version (scan_versions target prev rest) target := by
  rw [get_version.eq_def]
  dsimp only
  rw [if_neg (by omega), if_neg (by omega)]

/-- The scan of `get_version` over slots whose versions are
`b + 4 ^ i0, b + 4 ^ (i0 + 1), …, b + 4 ^ j` stops at the last slot whose
version number is at most the target. -/
theorem scan_versions_spec (b : Nat) (g : Nat → VTree)
    (hg : ∀ i, (g i).version = b + 4 ^ i) :
    ∀ (d i0 j t : Nat), i0 + d = j → b + 4 ^ i0 ≤ t → t - b < 65536 →
      scan_versions t (g i0) ((List.range' (i0 + 1) d).map g) =
        g (min j (largest_power_of_4_below (t - b))) := by
  intro d
  induction d with
  | zero =>
    intro i0 j t hij hle hlt
    have hi0 : i0 = j := by omega
    subst hi0
    simp only [List.range', List.map_nil, scan_versions]
    have h1 : 4 ^ i0 ≤ t - b := by omega
    have hj_le : i0 ≤ largest_power_of_4_below (t - b) :=
      le_largest_power_of_4_below hlt h1
    rw [min_eq_left hj_le]
  | succ d ihd =>
    intro i0 j t hij hle hlt
    rw [List.range'_succ, List.map_cons]
    simp only [scan_versions]
    rw [hg (i0 + 1)]
    split_ifs with hcase
    · have h1 : 4 ^ i0 ≤ t - b := by omega
      have hlp : largest_power_of_4_below (t - b) = i0 :=
        largest_power_of_4_below_eq hlt h1 (by omega)
      rw [hlp, min_eq_right (by omega)]
    · exact ihd (i0 + 1) j t (by omega) (by omega) hlt

/-- When every scanned slot's version number is at most the target, the
scan runs to the last slot. -/
theorem scan_versions_last (t : Nat) :
    ∀ (l : List VTree) (prev : VTree), (∀ c ∈ l, ¬ t < c.version) →
      scan_versions t prev l = (l.getLast?).getD prev := by
  intro l
  induction l with
  | nil => intro prev _; rfl
  | cons c rest ih =>
    intro prev h
    simp only [scan_versions]
    rw [if_neg (h c (List.mem_cons_self _ _))]
    cases rest with
    | nil => rfl
    | cons y ys =>
      rw [ih c (fun x hx => h x (List.mem_cons_of_mem _ hx)), List.getLast?_cons_cons,
        List.getLast?_eq_getLast_of_ne_nil (by simp)]
      simp only [Option.getD_some]

/-- On the canonical chain of `b, …, b + m`, `get_version` finds the node
of any version number in that range. -/
theorem get_version_buildChain_found :
    ∀ m, m < 65536 → ∀ b t, b ≤ t → t ≤ b + m →
      ∃ w, get_version (buildChain b m) t = some w ∧ w.version = t := by
  intro m
  induction m using Nat.strong_induction_on with
  | _ m ih =>
    intro hm b t hbt htm
    rcases Nat.eq_or_lt_of_le hbt with heq | hgt
    · subst heq
      refine ⟨buildChain b m, ?_, version_buildChain b m⟩
      rcases Nat.eq_zero_or_pos m with h0 | hpos
      · subst h0
        rw [buildChain_zero]
        exact get_version_eq_self b []
      · rw [buildChain_pos b m (by omega)]
        exact get_version_eq_self b _
    · have hm1 : 1 ≤ m := by omega
      set j := largest_power_of_4_below m with hj
      have hbr1 : 4 ^ j ≤ m := largest_power_of_4_below_le hm1 hm
      have hbr2 : m < 4 ^ (j + 1) := lt_largest_power_of_4_below_succ hm1 hm
      set f : Nat → VTree :=
        fun i => buildChain (b + 4 ^ i) (min m (4 ^ (i + 1) - 1) - 4 ^ i) with hf
      have hfver : ∀ i, (f i).version = b + 4 ^ i := by
        intro i
        simp only [hf]
        exact version_buildChain _ _
      have hcons : (List.range (j + 1)).map f = f 0 :: (List.range' 1 j).map f := by
        rw [List.range_eq_range', List.range'_succ, List.map_cons]
      rw [buildChain_pos b m (by omega), ← hj, ← hf, hcons]
      rw [get_version_gt_cons _ _ _ _ hgt]
      have hlt65 : t - b < 65536 := by omega
      have hscan := scan_versions_spec b f hfver j 0 j t (by omega)
        (by
          have h40 : (4:Nat) ^ 0 = 1 := by norm_num
          omega) hlt65
      rw [hscan]
      have h1tb : 1 ≤ t - b := by omega
      have hbrt1 : 4 ^ largest_power_of_4_below (t - b) ≤ t - b :=
        largest_power_of_4_below_le h1tb hlt65
      have hbrt2 : t - b < 4 ^ (largest_power_of_4_below (t - b) + 1) :=
        lt_largest_power_of_4_below_succ h1tb hlt65
      set istar := min j (largest_power_of_4_below (t - b)) with histar
      have hle_star : 4 ^ istar ≤ t - b := by
        have : (4:Nat) ^ istar ≤ 4 ^ largest_power_of_4_below (t - b) :=
          Nat.pow_le_pow_right (by norm_num) (by omega)
        omega
      have hup : t - b < 4 ^ (istar + 1) := by
        rcases Nat.le_total j (largest_power_of_4_below (t - b)) with hc | hc
        · have : istar = j := by omega
          rw [this]
          omega
        · have : istar = largest_power_of_4_below (t - b) := by omega
          rw [this]
          exact hbrt2
      have hfi : f istar = buildChain (b + 4 ^ istar) (min m (4 ^ (istar + 1) - 1) - 4 ^ istar) := by
        simp only [hf]
      have h4istar : 0 < 4 ^ istar := Nat.pos_pow_of_pos _ (by norm_num)
      rw [hfi]
      exact ih (min m (4 ^ (istar + 1) - 1) - 4 ^ istar) (by omega) (by omega)
        (b + 4 ^ istar) t (by omega) (by omega)

/-- On the canonical chain of `b, …, b + m`, looking up a version number
beyond `b + m` returns `none`. -/
theorem get_version_buildChain_beyond :
    ∀ m, m < 65536 → ∀ b t, b + m < t → get_version (buildChain b m) t = none := by
  intro m
  induction m using Nat.strong_induction_on with
  | _ m ih =>
    intro hm b t hbt
    rcases Nat.eq_zero_or_pos m with h0 | hpos
    · subst h0
      rw [buildChain_zero]
      exact get_version_gt_nil b t (by omega)
    · have hm1 : 1 ≤ m := hpos
      set j := largest_power_of_4_below m with hj
      have hbr1 : 4 ^ j ≤ m := largest_power_of_4_below_le hm1 hm
      have hbr2 : m < 4 ^ (j + 1) := lt_largest_power_of_4_below_succ hm1 hm
      set f : Nat → VTree :=
        fun i => buildChain (b + 4 ^ i) (min m (4 ^ (i + 1) - 1) - 4 ^ i) with hf
      have hfver : ∀ i, (f i).version = b + 4 ^ i := by
        intro i
        simp only [hf]
        exact version_buildChain _ _
      have hcons : (List.range (j + 1)).map f = f 0 :: (List.range' 1 j).map f := by
        rw [List.range_eq_range', List.range'_succ, List.map_cons]
      rw [buildChain_pos b m (by omega), ← hj, ← hf, hcons]
      rw [get_version_gt_cons _ _ _ _ (by omega)]
      have hall : ∀ c ∈ (List.range' 1 j).map f, ¬ t < c.version := by
        intro c hc
        obtain ⟨i, hi, hci⟩ := List.mem_map.mp hc
        have hir : i < 1 + j := by
          have := List.mem_range'.mp hi
          omega
        have : (4:Nat) ^ i ≤ 4 ^ j := Nat.pow_le_pow_right (by norm_num) (by
          have := List.mem_range'.mp hi
          omega)
        rw [← hci, hfver i]
        omega
      rw [scan_versions_last t _ _ hall]
      have hlast : ((List.range' 1 j).map f).getLast?.getD (f 0) = f j := by
        cases hcj : j with
        | zero =>
          rfl
        | succ j' =>
          rw [List.range'_concat, List.map_append]
          simp only [List.map_cons, List.map_nil]
          rw [List.getLast?_concat]
          simp only [Option.getD_some]
          congr 1
          omega
      rw [hlast]
      have hfj : f j = buildChain (b + 4 ^ j) (m - 4 ^ j) := by
        have hmin : min m (4 ^ (j + 1) - 1) = m := by omega
        simp only [hf, hmin]
      rw [hfj]
      have h4j : 0 < 4 ^ j := Nat.pos_pow_of_pos _ (by norm_num)
      exact ih (m - 4 ^ j) (by omega) (by omega) (b + 4 ^ j) t (by omega)

/-!
## Duplicate insertions leave the chain unchanged
-/

theorem set_getElem?_self : ∀ (l : List VTree) (i : Nat) (a : VTree),
    l[i]? = some a → l.set i a = l := by
  intro l
  induction l with
  | nil => intro i a h; simp at h
  | cons x xs ih =>
    intro i a h
    cases i with
    | zero =>
      simp only [List.getElem?_cons_zero, Option.some.injEq] at h
      rw [← h]
      rfl
    | succ n =>
      simp only [List.getElem?_cons_succ] at h
      simp [List.set, ih n a h]

theorem add_version_inner_isRight_unchanged :
    ∀ d (u version : VTree) (s tr : Nat), tr - s = d →
      (add_version_inner version u s tr).2.isRight = true →
      (add_version_inner version u s tr).1 = u := by
  intro d
  induction d using Nat.strong_induction_on with
  | _ d ihd =>
    intro u version s tr hd hR
    cases u with
    | node v cs =>
      rcases Nat.eq_zero_or_pos d with h0 | hpos
      · rw [add_version_inner_dup _ _ _ _ _ (by omega)]
      · cases hex : cs[largest_power_of_4_below (tr - s)]? with
        | none =>
          rw [add_version_inner_push _ _ _ _ _ (by omega) hex] at hR
          simp at hR
        | some ex =>
          rw [add_version_inner_descend _ _ _ _ _ ex (by omega) hex] at hR ⊢
          dsimp only at hR ⊢
          have hp : 0 < 2 ^ (2 * largest_power_of_4_below (tr - s)) :=
            Nat.pos_pow_of_pos _ (by norm_num)
          have hrec := ihd (tr - (s + 2 ^ (2 * largest_power_of_4_below (tr - s))))
            (by omega) ex version _ tr rfl hR
          rw [hrec, set_getElem?_self cs _ ex hex]

/-!
## Claim theorems: version chain (C1 – C5)
-/

/-- C1.  Version-chain spacing invariant: starting from a root lazy item at
version number 0, after any sequence of `add_version` calls inserting nodes
with consecutive version numbers `1 .. N` (with `N` in `u16` range), every
node reachable through the version chain satisfies
`versions[i].version_number - node.version_number = 4 ^ i`, recursively for
all descendants (the check of `validate_lazy_item_versions`). -/
theorem version_chain_spacing (N : Nat) (hN : N ≤ 65535) :
    ValidVersions (insert_versions N) 0 := by
  rw [insert_versions_eq_buildChain N hN]
  exact validVersions_buildChain N (by omega) 0

theorem version_chain_spacing_witness :
    100 ≤ 65535 ∧ ValidVersions (insert_versions 100) 0 :=
  ⟨by decide, version_chain_spacing 100 (by decide)⟩

/-- C2.  For every `x` with `1 ≤ x < 65536`, `largest_power_of_4_below x`
brackets `x` between consecutive powers of 4, and equals the index of the
most significant set bit of the 16-bit value `x` divided by 2. -/
theorem largest_power_of_4_below_correct (x : Nat) (h1 : 1 ≤ x) (h2 : x < 65536) :
    4 ^ largest_power_of_4_below x ≤ x ∧ x < 4 ^ (largest_power_of_4_below x + 1) ∧
      largest_power_of_4_below x = Nat.log2 x / 2 :=
  ⟨largest_power_of_4_below_le h1 h2, lt_largest_power_of_4_below_succ h1 h2,
    largest_power_of_4_below_eq_log2 h1 h2⟩

theorem largest_power_of_4_below_correct_witness :
    1 ≤ 100 ∧ 100 < 65536 ∧
      (4 ^ largest_power_of_4_below 100 ≤ 100 ∧
        100 < 4 ^ (largest_power_of_4_below 100 + 1) ∧
        largest_power_of_4_below 100 = Nat.log2 100 / 2) :=
  ⟨by decide, by decide, largest_power_of_4_below_correct 100 (by decide) (by decide)⟩

/-- C3.  Concrete scenario: starting from a root at version number 0 and
adding versions 1 through 100 in order via `add_version(root, new)`, the
root's `versions` array has exactly 4 slots filled, referencing the nodes
at relative distances 1, 4, 16 and 64 from the root. -/
theorem root_versions_after_100 :
    (insert_versions 100).version = 0 ∧
    (insert_versions 100).versions.length = 4 ∧
    (insert_versions 100).versions.map VTree.version = [1, 4, 16, 64] := by
  rw [insert_versions_eq_buildChain 100 (by omega)]
  have hlp : largest_power_of_4_below 100 = 3 :=
    largest_power_of_4_below_eq (by omega) (by norm_num) (by norm_num)
  rw [buildChain_pos 0 100 (by omega), hlp]
  refine ⟨rfl, ?_, ?_⟩
  · simp [VTree.versions]
  · simp only [VTree.versions, List.range_succ, List.range_zero, List.map_append,
      List.map_cons, List.map_nil, List.nil_append, version_buildChain]
    norm_num

/-- C4.  `get_version(self, target)`: returns `none` when the target is
below `self`'s version number; returns `self` when equal; and on any chain
built by consecutive `add_version` insertions `0 .. N`, descending the
chain finds the node whose version number equals the target whenever
`target ≤ N`, and returns `none` when the chain holds no node at or beyond
the target (`target > N`). -/
theorem get_version_spec (u : VTree) (N target : Nat) (hN : N ≤ 65535) :
    (target < u.version → get_version u target = none) ∧
    (get_version u u.version = some u) ∧
    (target ≤ N →
      ∃ w, get_version (insert_versions N) target = some w ∧ w.version = target) ∧
    (N < target → get_version (insert_versions N) target = none) := by
  refine ⟨?_, ?_, ?_, ?_⟩
  · intro h
    cases u with
    | node v cs => exact get_version_lt v cs target h
  · cases u with
    | node v cs => exact get_version_eq_self v cs
  · intro h
    rw [insert_versions_eq_buildChain N hN]
    exact get_version_buildChain_found N (by omega) 0 target (by omega) (by omega)
  · intro h
    rw [insert_versions_eq_buildChain N hN]
    exact get_version_buildChain_beyond N (by omega) 0 target (by omega)

theorem get_version_spec_witness :
    5 ≤ 65535 ∧ 3 ≤ 5 ∧
      ∃ w, get_version (insert_versions 5) 3 = some w ∧ w.version = 3 :=
  ⟨by decide, by decide,
    (get_version_spec (VTree.node 0 []) 5 3 (by decide)).2.2.1 (by decide)⟩

/-- C5.  Duplicate version insertion is detected and not silently ignored:
when `add_version_inner` reaches a node whose relative version number
equals the target relative version number (`target_diff == 0`), it returns
the conflicting existing lazy item as the `Err` variant of the inner result
instead of inserting; and whenever the result is the `Err` variant, no
`versions` slot anywhere in the tree has been modified. -/
theorem duplicate_version_detected (u version : VTree) (s tr : Nat) :
    add_version_inner version u s s = (u, Sum.inr u) ∧
    ((add_version_inner version u s tr).2.isRight = true →
      (add_version_inner version u s tr).1 = u) := by
  constructor
  · cases u with
    | node v cs => exact add_version_inner_dup version v cs s s (by omega)
  · exact add_version_inner_isRight_unchanged (tr - s) u version s tr rfl

theorem duplicate_version_detected_witness :
    add_version_inner (VTree.node 5 []) (VTree.node 0 []) 3 3 =
      (VTree.node 0 [], Sum.inr (VTree.node 0 [])) ∧
    (add_version_inner (VTree.node 5 []) (VTree.node 0 []) 3 3).2.isRight = true ∧
    (add_version_inner (VTree.node 5 []) (VTree.node 0 []) 3 3).1 = VTree.node 0 [] := by
  have h1 := (duplicate_version_detected (VTree.node 0 []) (VTree.node 5 []) 3 3).1
  have h2 := (duplicate_version_detected (VTree.node 0 []) (VTree.node 5 []) 3 3).2
    (by rw [h1]; rfl)
  exact ⟨h1, by rw [h1]; rfl, h2⟩

/-!
## Lazy item states (C6)

`ProbLazyItem` holds an atomic pointer to a `ProbLazyItemState` and an
immutable `is_level_0` flag.  Single-threaded view: the atomic load/swap
pair of `set_state` is an unconditional state replacement.  `try_get_data`
only loads the state pointer; on `Pending` it asks the cache for the data
at the file index and never stores to the item's own state, so it is
modelled as returning the (unchanged) item together with the result; the
cache is abstracted as a partial map from file indices to payloads.
-/

structure FileIndex where
  offset : Nat
  version_number : Nat
  version_id : Nat
deriving DecidableEq

inductive ProbLazyItemState (T : Type) where
  | ready (data : T) (file_offset : Nat) (version_id : Nat) (version_number : Nat)
  | pending (file_index : FileIndex)

structure ProbLazyItem (T : Type) where
  state : ProbLazyItemState T
  is_level_0 : Bool

/-- `ProbLazyItem::set_state`: swaps in the new boxed state, whatever it
is; the old state is dropped. -/
def set_state {T : Type} (item : ProbLazyItem T) (new_state : ProbLazyItemState T) :
    ProbLazyItem T :=
  { item with state := new_state }

/-- `ProbLazyItem::is_ready`. -/
def is_ready {T : Type} (item : ProbLazyItem T) : Bool :=
  match item.state with
  | .ready _ _ _ _ => true
  | .pending _ => false

/-- `ProbLazyItem::is_pending`. -/
def is_pending {T : Type} (item : ProbLazyItem T) : Bool :=
  match item.state with
  | .ready _ _ _ _ => false
  | .pending _ => true

/-- `ProbLazyItem::try_get_data`: `Ready` yields the data; `Pending`
resolves through the cache.  The item's state is only read. -/
def try_get_data {T : Type} (item : ProbLazyItem T) (cache : FileIndex → Option T) :
    Option T × ProbLazyItem T :=
  match item.state with
  | .ready d _ _ _ => (some d, item)
  | .pending fi => (cache fi, item)

/-- C6 counterexample: `set_state` installs an arbitrary caller-supplied
state, so a `Ready` item observed via `is_ready` can be made `Pending`
again by a subsequent `set_state` call with a `Pending` argument — at this
concrete input the claimed Pending→Ready-only discipline fails. -/
theorem lazy_item_state_reversal :
    is_ready ({ state := .ready 7 0 0 0, is_level_0 := false } : ProbLazyItem Nat) = true ∧
    is_pending (set_state
      ({ state := .ready 7 0 0 0, is_level_0 := false } : ProbLazyItem Nat)
      (.pending { offset := 0, version_number := 0, version_id := 0 })) = true :=
  ⟨rfl, rfl⟩

/-- C6 (amended).  `try_get_data` never changes the item's state, and
`set_state` with a `Ready` state never makes the item `Pending`; the
Pending→Ready-only discipline therefore holds for `try_get_data` and for
`set_state` restricted to `Ready` arguments, but `set_state` itself
accepts arbitrary states and with a `Pending` argument reverses a `Ready`
item back to `Pending`. -/
theorem lazy_item_state_transitions {T : Type} (item : ProbLazyItem T)
    (d : T) (fo vi vn : Nat) (fi : FileIndex) (cache : FileIndex → Option T) :
    is_pending (set_state item (.ready d fo vi vn)) = false ∧
    is_ready (set_state item (.ready d fo vi vn)) = true ∧
    (try_get_data item cache).2 = item ∧
    is_pending (set_state item (.pending fi)) = true := by
  refine ⟨rfl, rfl, ?_, rfl⟩
  rw [try_get_data]
  cases h : item.state with
  | ready d fo vi vn => rfl
  | pending fi => rfl

/-!
## JSON and the vector DTOs (C7 – C10)

JSON values carry numbers as exact rationals: the deserializers never do
arithmetic on vector payloads, they pass them through verbatim, so `f32`
payloads are modelled by `ℚ`.  An object is the ordered list of key/value
pairs presented by the underlying `serde_json` map access — duplicate keys
are representable, as a JSON text with duplicate keys presents both
entries to a visitor.
-/

inductive Json : Type where
  | null
  | bool (b : Bool)
  | num (q : Rat)
  | str (s : String)
  | arr (items : List Json)
  | obj (fields : List (String × Json))

/-- Serde error kinds relevant to the DTO deserializers (serde errors are
strings; only the kind and the offending name matter here). -/
inductive DeError : Type where
  | invalid_type (expected : String)
  | missing_field (name : String)
  | duplicate_field (name : String)
  | unknown_field (name : String)
  | unknown_variant (name : String)
deriving DecidableEq

/-- `VectorId`.  The type lives in `models/types.rs`, which is not among
the sources.  Modelled from the spec: a vector id deserializes from a JSON
string (e.g. `"v1"`) or a non-negative integer. -/
inductive VectorId : Type where
  | str (s : String)
  | num (n : Nat)
deriving DecidableEq

def VectorId.fromJson : Json → Except DeError VectorId
  | .str s => .ok (.str s)
  | .num q => if q.den = 1 ∧ 0 ≤ q.num then .ok (.num q.num.toNat)
              else .error (.invalid_type "a vector id")
  | _ => .error (.invalid_type "a vector id")

/-- `SparsePair(u32, f32)` from `indexes/inverted/types.rs`. -/
structure SparsePair where
  pair_index : Nat
  pair_value : Rat
deriving DecidableEq

def parseF32 : Json → Except DeError Rat
  | .num q => .ok q
  | _ => .error (.invalid_type "f32")

def parseU32 : Json → Except DeError Nat
  | .num q => if q.den = 1 ∧ 0 ≤ q.num then .ok q.num.toNat
              else .error (.invalid_type "u32")
  | _ => .error (.invalid_type "u32")

def parseF32Array : List Json → Except DeError (List Rat)
  | [] => .ok []
  | j :: rest =>
    match parseF32 j with
    | .error e => .error e
    | .ok q =>
      match parseF32Array rest with
      | .error e => .error e
      | .ok qs => .ok (q :: qs)

def parseU32Array : List Json → Except DeError (List Nat)
  | [] => .ok []
  | j :: rest =>
    match parseU32 j with
    | .error e => .error e
    | .ok n =>
      match parseU32Array rest with
      | .error e => .error e
      | .ok ns => .ok (n :: ns)

/-- `Vec<f32>` deserialization. -/
def parseVecF32 : Json → Except DeError (List Rat)
  | .arr items => parseF32Array items
  | _ => .error (.invalid_type "a sequence")

/-- `Vec<u32>` deserialization. -/
def parseVecU32 : Json → Except DeError (List Nat)
  | .arr items => parseU32Array items
  | _ => .error (.invalid_type "a sequence")

def parseString : Json → Except DeError String
  | .str s => .ok s
  | _ => .error (.invalid_type "a string")

structure CreateSparseVectorDto where
  id : VectorId
  values : List SparsePair
deriving DecidableEq

/-- The loop body of `CreateSparseVectorDtoVisitor::visit_map`
(`dtos.rs` lines 46–95): process each presented map entry in order,
rejecting a key already seen as `duplicate_field` and a key other than
`id`/`values`/`indices` as `unknown_field`; at the end require all three
fields and zip `indices` with `values` into `SparsePair`s. -/
def sparse_visit_map : List (String × Json) → Option VectorId → Option (List Rat) →
    Option (List Nat) → Except DeError CreateSparseVectorDto
  | [], idOpt, valuesOpt, indicesOpt =>
    match idOpt with
    | none => .error (.missing_field "id")
    | some idv =>
      match valuesOpt with
      | none => .error (.missing_field "values")
      | some values =>
        match indicesOpt with
        | none => .error (.missing_field "indices")
        | some indices =>
          .ok { id := idv,
                values := (indices.zip values).map (fun p => ⟨p.1, p.2⟩) }
  | (key, value) :: rest, idOpt, valuesOpt, indicesOpt =>
    if key = "id" then
      if idOpt.isSome then .error (.duplicate_field "id")
      else
        match VectorId.fromJson value with
        | .error e => .error e
        | .ok idv => sparse_visit_map rest (some idv) valuesOpt indicesOpt
    else if key = "values" then
      if valuesOpt.isSome then .error (.duplicate_field "values")
      else
        match parseVecF32 value with
        | .error e => .error e
        | .ok vs => sparse_visit_map rest idOpt (some vs) indicesOpt
    else if key = "indices" then
      if indicesOpt.isSome then .error (.duplicate_field "indices")
      else
        match parseVecU32 value with
        | .error e => .error e
        | .ok ns => sparse_visit_map rest idOpt valuesOpt (some ns)
    else .error (.unknown_field key)

/-- `CreateSparseVectorDto::deserialize`: `deserialize_map` with the
visitor above; a non-map input is an `invalid_type` error. -/
def CreateSparseVectorDto.deserialize : Json → Except DeError CreateSparseVectorDto
  | .obj fields => sparse_visit_map fields none none none
  | _ => .error (.invalid_type "struct CreateSparseVectorDto")

structure CreateDenseVectorDto where
  id : VectorId
  values : List Rat
  metadata : Option Json

/-- The derived deserializer for `CreateDenseVectorDto`: fields `id`,
`values` and optional `metadata`; duplicates of a known field are
`duplicate_field` errors, unknown fields are skipped (serde's default),
and a missing `metadata` defaults to `None`.  `MetadataFields` lives in
`metadata/mod.rs`, which is not among the sources; modelled from the spec
as an opaque metadata-fields record carried verbatim. -/
def dense_visit_map : List (String × Json) → Option VectorId → Option (List Rat) →
    Option Json → Except DeError CreateDenseVectorDto
  | [], idOpt, valuesOpt, metadataOpt =>
    match idOpt with
    | none => .error (.missing_field "id")
    | some idv =>
      match valuesOpt with
      | none => .error (.missing_field "values")
      | some values => .ok { id := idv, values := values, metadata := metadataOpt }
  | (key, value) :: rest, idOpt, valuesOpt, metadataOpt =>
    if key = "id" then
      if idOpt.isSome then .error (.duplicate_field "id")
      else
        match VectorId.fromJson value with
        | .error e => .error e
        | .ok idv => dense_visit_map rest (some idv) valuesOpt metadataOpt
    else if key = "values" then
      if valuesOpt.isSome then .error (.duplicate_field "values")
      else
        match parseVecF32 value with
        | .error e => .error e
        | .ok vs => dense_visit_map rest idOpt (some vs) metadataOpt
    else if key = "metadata" then
      if metadataOpt.isSome then .error (.duplicate_field "metadata")
      else dense_visit_map rest idOpt valuesOpt (some value)
    else dense_visit_map rest idOpt valuesOpt metadataOpt

def CreateDenseVectorDto.deserialize : Json → Except DeError CreateDenseVectorDto
  | .obj fields => dense_visit_map fields none none none
  | _ => .error (.invalid_type "struct CreateDenseVectorDto")

structure CreateSparseIdfDocumentDto where
  id : VectorId
  text : String
deriving DecidableEq

/-- The derived deserializer for `CreateSparseIdfDocumentDto`: fields `id`
and `text`. -/
def sparse_idf_visit_map : List (String × Json) → Option VectorId → Option String →
    Except DeError CreateSparseIdfDocumentDto
  | [], idOpt, textOpt =>
    match idOpt with
    | none => .error (.missing_field "id")
    | some idv =>
      match textOpt with
      | none => .error (.missing_field "text")
      | some text => .ok { id := idv, text := text }
  | (key, value) :: rest, idOpt, textOpt =>
    if key = "id" then
      if idOpt.isSome then .error (.duplicate_field "id")
      else
        match VectorId.fromJson value with
        | .error e => .error e
        | .ok idv => sparse_idf_visit_map rest (some idv) textOpt
    else if key = "text" then
      if textOpt.isSome then .error (.duplicate_field "text")
      else
        match parseString value with
        | .error e => .error e
        | .ok text => sparse_idf_visit_map rest idOpt (some text)
    else sparse_idf_visit_map rest idOpt textOpt

def CreateSparseIdfDocumentDto.deserialize : Json → Except DeError CreateSparseIdfDocumentDto
  | .obj fields => sparse_idf_visit_map fields none none
  | _ => .error (.invalid_type "struct CreateSparseIdfDocumentDto")

inductive CreateVectorDto : Type where
  | dense (d : CreateDenseVectorDto)
  | sparse (s : CreateSparseVectorDto)
  | sparseIdf (d : CreateSparseIdfDocumentDto)

/-- `serde_json::Map::insert` while building a `serde_json::Value` object:
a repeated key replaces the stored value (last occurrence wins). -/
def objInsert (m : List (String × Json)) (k : String) (v : Json) : List (String × Json) :=
  if m.any (fun p => p.1 = k) then m.map (fun p => if p.1 = k then (k, v) else p)
  else m ++ [(k, v)]

/-- Collecting the flattened remainder into a `serde_json::Value` object:
`Value`'s map visitor inserts every presented entry in order, so duplicate
keys collapse, last occurrence winning.  (The real `Map` iterates in
sorted key order; none of the deserializers below is order-sensitive.) -/
def buildValueObj : List (String × Json) → List (String × Json) → List (String × Json)
  | [], m => m
  | (k, v) :: rest, m => buildValueObj rest (objInsert m k v)

/-- The derived deserializer of `RawMap` inside
`CreateVectorDto::deserialize`: `index_type` (a required string) and
`isIDF` (a boolean, defaulting to `false`) are matched by name, with
duplicates of either rejected; every other entry — duplicates included —
is buffered in order for the `#[serde(flatten)] rest` field. -/
def raw_map_fold : List (String × Json) → Option String → Option Bool →
    List (String × Json) → Except DeError (String × Bool × List (String × Json))
  | [], itOpt, idfOpt, collected =>
    match itOpt with
    | none => .error (.missing_field "index_type")
    | some it => .ok (it, idfOpt.getD false, collected)
  | (key, value) :: rest, itOpt, idfOpt, collected =>
    if key = "index_type" then
      if itOpt.isSome then .error (.duplicate_field "index_type")
      else
        match value with
        | .str s => raw_map_fold rest (some s) idfOpt collected
        | _ => .error (.invalid_type "a string")
    else if key = "isIDF" then
      if idfOpt.isSome then .error (.duplicate_field "isIDF")
      else
        match value with
        | .bool b => raw_map_fold rest itOpt (some b) collected
        | _ => .error (.invalid_type "a boolean")
    else raw_map_fold rest itOpt idfOpt (collected ++ [(key, value)])

/-- `CreateVectorDto::deserialize`: deserialize `RawMap` (tag fields plus
flattened rest), then dispatch on `(index_type, is_idf)`:
`("dense", _)` → dense, `("sparse", true)` → sparse-IDF document,
`("sparse", false)` → sparse vector, anything else → `unknown_variant`.
The nested `serde_json::from_value` calls run on the flattened rest
object; their `map_err(de::Error::custom)` wrapper only re-renders the
message and is dropped here. -/
def CreateVectorDto.deserialize (j : Json) : Except DeError CreateVectorDto :=
  match j with
  | .obj fields =>
    match raw_map_fold fields none none [] with
    | .error e => .error e
    | .ok (index_type, is_idf, collected) =>
      let rest := Json.obj (buildValueObj collected [])
      match index_type, is_idf with
      | "dense", _ => (CreateDenseVectorDto.deserialize rest).map CreateVectorDto.dense
      | "sparse", true =>
        (CreateSparseIdfDocumentDto.deserialize rest).map CreateVectorDto.sparseIdf
      | "sparse", false =>
        (CreateSparseVectorDto.deserialize rest).map CreateVectorDto.sparse
      | other, _ => .error (.unknown_variant other)
  | _ => .error (.invalid_type "map")

theorem parseF32Array_map (vs : List Rat) : parseF32Array (vs.map Json.num) = .ok vs := by
  induction vs with
  | nil => rfl
  | cons q rest ih =>
    rw [List.map_cons, parseF32Array]
    rw [show parseF32 (Json.num q) = .ok q from rfl, ih]

theorem parseU32Array_map (ns : List Nat) :
    parseU32Array (ns.map (fun (n : Nat) => Json.num (n : Rat))) = .ok ns := by
  induction ns with
  | nil => rfl
  | cons n rest ih =>
    rw [List.map_cons, parseU32Array]
    have hn : parseU32 (Json.num (n : Rat)) = .ok n := by
      rw [parseU32, if_pos]
      · rw [Rat.num_natCast, Int.toNat_natCast]
      · constructor
        · exact Rat.den_natCast n
        · rw [Rat.num_natCast]
          exact Int.natCast_nonneg n
    rw [hn, ih]

/-- A well-formed sparse-vector JSON body: string id, array of numeric
values, array of numeric indices. -/
def mkSparseFields (s : String) (vs : List Rat) (is2 : List Nat) : Json :=
  Json.obj [("id", Json.str s), ("values", Json.arr (vs.map Json.num)),
    ("indices", Json.arr (is2.map (fun (n : Nat) => Json.num (n : Rat))))]

/-- Decoding a well-formed sparse body zips `indices` with `values`
(in that order) into the sparse-pair list. -/
theorem sparse_decode_canonical (s : String) (vs : List Rat) (is2 : List Nat) :
    CreateSparseVectorDto.deserialize (mkSparseFields s vs is2) =
      .ok ⟨.str s, (is2.zip vs).map (fun p => ⟨p.1, p.2⟩)⟩ := by
  have hv : parseVecF32 (Json.arr (vs.map Json.num)) = .ok vs := by
    rw [parseVecF32]
    exact parseF32Array_map vs
  have hi : parseVecU32 (Json.arr (is2.map (fun (n : Nat) => Json.num (n : Rat)))) = .ok is2 := by
    rw [parseVecU32]
    exact parseU32Array_map is2
  rw [mkSparseFields, CreateSparseVectorDto.deserialize, sparse_visit_map, if_pos rfl,
    if_neg (by simp)]
  rw [show VectorId.fromJson (Json.str s) = .ok (.str s) from rfl]
  dsimp only
  rw [sparse_visit_map, if_neg (by decide), if_pos rfl, if_neg (by simp), hv]
  dsimp only
  rw [sparse_visit_map, if_neg (by decide), if_neg (by decide), if_pos rfl, if_neg (by simp), hi]
  dsimp only
  rw [sparse_visit_map]

/-!
## The pseudo-replica insertion of `init_hnsw_index_for_collection` (C7)
-/

/-- `DenseInputEmbedding(id, values, metadata, is_pseudo)` from
`indexes/hnsw/mod.rs` (declared outside the sources; its four fields are
exactly the four constructor arguments used in `api_service.rs`). -/
structure DenseInputEmbedding where
  id : VectorId
  values : List Rat
  metadata : Option Json
  is_pseudo : Bool

/-- The vector insertions performed by `init_hnsw_index_for_collection`
(`api_service.rs` lines 158–180) after the physical root is created, as
the list of `run_upload` calls with their vector batches, as a function of
whether the collection has a metadata schema and of its dense dimension
count: with a schema bound, exactly one call uploading the single
all-ones pseudo vector (`vec![1.0; num_dims]`) with id
`u64::pow(2, 56) - 1`, flagged as pseudo, with no metadata fields;
without a schema, no call.  The file-system, LMDB and version-commit side
effects carry no vector data and are not modelled. -/
def init_hnsw_pseudo_uploads (has_metadata_schema : Bool) (num_dims : Nat) :
    List (List DenseInputEmbedding) :=
  if has_metadata_schema then
    [[⟨VectorId.num (2 ^ 56 - 1), List.replicate num_dims 1, none, true⟩]]
  else []

/-- C7.  When a metadata schema is bound, `init_hnsw_index_for_collection`
inserts, after creating the physical root, exactly one pseudo vector whose
values are all ones in every one of the collection's dense dimensions,
with id `2 ^ 56 - 1`, through the normal `run_upload` path; with no
metadata schema bound, no pseudo vector is inserted. -/
theorem pseudo_replica_insertion (num_dims : Nat) (schema_present : Bool) :
    (schema_present = true →
      init_hnsw_pseudo_uploads schema_present num_dims =
        [[⟨VectorId.num (2 ^ 56 - 1), List.replicate num_dims 1, none, true⟩]] ∧
      (List.replicate num_dims (1 : Rat)).length = num_dims ∧
      ∀ q ∈ List.replicate num_dims (1 : Rat), q = 1) ∧
    (schema_present = false → init_hnsw_pseudo_uploads schema_present num_dims = []) := by
  constructor
  · intro h
    subst h
    refine ⟨rfl, List.length_replicate _ _, ?_⟩
    intro q hq
    exact List.eq_of_mem_replicate hq
  · intro h
    subst h
    rfl

theorem pseudo_replica_insertion_witness :
    init_hnsw_pseudo_uploads true 3 =
      [[⟨VectorId.num (2 ^ 56 - 1), [1, 1, 1], none, true⟩]] ∧
    init_hnsw_pseudo_uploads false 3 = [] := by
  have h := pseudo_replica_insertion 3 true
  have h2 := pseudo_replica_insertion 3 false
  refine ⟨?_, h2.2 rfl⟩
  rw [(h.1 rfl).1]
  rfl

/-!
## Claim theorems: DTO decoding (C8 – C10)
-/

/-- C8.  Sparse DTO decode zips indices with values: the concrete request
body `{"index_type":"sparse","isIDF":false,"id":"v1","values":[0.5,0.25],
"indices":[7,3]}` decodes through `CreateVectorDto` to the `Sparse`
variant with id `"v1"` and sparse pairs `[(7, 0.5), (3, 0.25)]`; in
general the k-th pair of a well-formed sparse body combines `indices[k]`
with `values[k]` (the pair list is the zip of indices with values). -/
theorem sparse_dto_decode (s : String) (vs : List Rat) (is2 : List Nat) :
    CreateVectorDto.deserialize (.obj [("index_type", .str "sparse"), ("isIDF", .bool false),
        ("id", .str "v1"),
        ("values", .arr [.num 0.5, .num 0.25]),
        ("indices", .arr [.num 7, .num 3])]) =
      .ok (.sparse ⟨.str "v1", [⟨7, 0.5⟩, ⟨3, 0.25⟩]⟩) ∧
    CreateSparseVectorDto.deserialize (mkSparseFields s vs is2) =
      .ok ⟨.str s, (is2.zip vs).map (fun p => ⟨p.1, p.2⟩)⟩ :=
  ⟨rfl, sparse_decode_canonical s vs is2⟩

/-- C9 counterexample: a sparse-vector request with two `"values"` keys
does NOT fail with a duplicate-field error through
`CreateVectorDto::deserialize` — the `#[serde(flatten)]` remainder is
buffered into a `serde_json::Value` object whose map collapses repeated
keys (last occurrence wins) before the sparse visitor runs, so the input
decodes successfully, to the pair list built from the second `values`
array. -/
theorem duplicate_values_full_path_decodes :
    CreateVectorDto.deserialize (.obj [("index_type", .str "sparse"), ("isIDF", .bool false),
      ("id", .str "v1"), ("values", .arr [.num 0.5]), ("values", .arr [.num 0.25]),
      ("indices", .arr [.num 7])]) =
    .ok (.sparse ⟨.str "v1", [⟨7, 0.25⟩]⟩) := rfl

/-- C9 (amended).  `CreateSparseVectorDto`'s visitor rejects a map that
presents two `"values"` entries with a duplicate-field error, so the check
fires when the sparse DTO is deserialized directly from such a map; but
through `CreateVectorDto::deserialize` the flattened remainder collapses
duplicate keys (last wins) before that visitor runs, so the same request
body decodes successfully.  An input whose `index_type` is neither
`"dense"` nor `"sparse"` (e.g. `"foo"`) fails with an unknown-variant
error and decodes to no `CreateVectorDto` value. -/
theorem malformed_create_vector_rejection :
    CreateSparseVectorDto.deserialize (.obj [("id", .str "v1"), ("values", .arr [.num 0.5]),
      ("values", .arr [.num 0.25]), ("indices", .arr [.num 7])]) =
      .error (.duplicate_field "values") ∧
    CreateVectorDto.deserialize (.obj [("index_type", .str "foo"), ("id", .str "v1")]) =
      .error (.unknown_variant "foo") ∧
    CreateVectorDto.deserialize (.obj [("index_type", .str "sparse"), ("isIDF", .bool false),
      ("id", .str "v1"), ("values", .arr [.num 0.5]), ("values", .arr [.num 0.25]),
      ("indices", .arr [.num 7])]) =
      .ok (.sparse ⟨.str "v1", [⟨7, 0.25⟩]⟩) :=
  ⟨rfl, rfl, rfl⟩

/-- C10.  When a sparse-vector input's `values` and `indices` arrays have
different lengths, decoding does not fail: the zip silently truncates to
the shorter array, so the resulting `CreateSparseVectorDto` contains
`min (values.length) (indices.length)` sparse pairs and the excess entries
of the longer array are dropped — e.g. three values against two indices
yield exactly the two pairs built from the first two values. -/
theorem sparse_zip_truncation (s : String) (vs : List Rat) (is2 : List Nat) :
    (∃ dto, CreateSparseVectorDto.deserialize (mkSparseFields s vs is2) = .ok dto ∧
      dto.values.length = min vs.length is2.length) ∧
    CreateVectorDto.deserialize (.obj [("index_type", .str "sparse"), ("isIDF", .bool false),
      ("id", .str "v1"), ("values", .arr [.num 1, .num 2, .num 3]),
      ("indices", .arr [.num 7, .num 3])]) =
      .ok (.sparse ⟨.str "v1", [⟨7, 1⟩, ⟨3, 2⟩]⟩) := by
  constructor
  · refine ⟨_, sparse_decode_canonical s vs is2, ?_⟩
    simp [List.length_zip, Nat.min_comm]
  · rfl
